import Mathlib

/-!
Shallow embedding of the scrivener note-tracking tool
(src/scrivener/notes.rs, src/scrivener/args/mod.rs,
src/scrivener/args/commands/mod.rs, src/main.rs).

Paths are modelled as lists of components; file-system effects
(canonicalization, file deletion, the external editor) are modelled as
explicit parameters or as part of a `World` record.  `BTreeSet<Note>`
(ordered by `Ord for Note`, which compares names only) is modelled as a
name-sorted list of notes; `BTreeSet::insert` keeps the already-present
element when an equal one is inserted, which the model mirrors.
-/

namespace Scrivener

/-- A file-system path, as its list of components ( `[]` is the root `/`). -/
abbrev FsPath := List String

/-- `Note` from notes.rs: name, absolute path, optional tags. -/
structure Note where
  name : String
  path : FsPath
  tags : Option (List String)
  deriving DecidableEq, Repr

/-- `PartialEq for Note` in notes.rs compares names only. -/
def Note.beq (a b : Note) : Bool := a.name == b.name

/-- `Ord for Note` in notes.rs compares names only; Rust `String` order is
lexicographic, modelled by `<` on the character lists. -/
def Note.lt (a b : Note) : Prop := a.name.data < b.name.data

instance (a b : Note) : Decidable (Note.lt a b) :=
  inferInstanceAs (Decidable (a.name.data < b.name.data))

/-- `Note::new`: canonicalizes the path (`canon` models `fs::canonicalize`,
returning `none` on failure) and builds the record. -/
def Note.new (canon : FsPath → Option FsPath) (name : String) (path : FsPath)
    (tags : Option (List String)) : Except String Note :=
  match canon path with
  | none => .error ("Could not read file `" ++ String.intercalate "/" path ++ "`.")
  | some cp => .ok ⟨name, cp, tags⟩

/-- `BTreeSet<Note>::insert` on the sorted-list model: descend to the
name-ordered position; if a note with an equal name is already present the
set is left unchanged (the old element is kept, `insert` returns false). -/
def btreeInsert (n : Note) : List Note → List Note
  | [] => [n]
  | m :: ms =>
    if n.name.data < m.name.data then n :: m :: ms
    else if n.name = m.name then m :: ms
    else m :: btreeInsert n ms

/-- `BTreeSet<Note>::remove(&Note::dummy(name))`: removes the element whose
name equals `name`, returning whether one was present. -/
def btreeRemove (name : String) : List Note → List Note × Bool
  | [] => ([], false)
  | m :: ms =>
    if name.data < m.name.data then (m :: ms, false)
    else if name = m.name then (ms, true)
    else
      let r := btreeRemove name ms
      (m :: r.1, r.2)

/-- `BTreeSet<Note>::get(&Note::dummy(name))`: returns the stored element
whose name equals `name`, if any. -/
def btreeGet (name : String) : List Note → Option Note
  | [] => none
  | m :: ms =>
    if name.data < m.name.data then none
    else if name = m.name then some m
    else btreeGet name ms

/-- `Index` from notes.rs: a `BTreeSet<Note>`, modelled as its sorted
element list. -/
structure Index where
  notes : List Note
  deriving DecidableEq, Repr

/-- `Index::add`: builds a note via `Note::new` (propagating its error) and
inserts it with `BTreeSet::insert`, ignoring the returned boolean. -/
def Index.add (canon : FsPath → Option FsPath) (i : Index) (name : String)
    (path : FsPath) (tags : Option (List String)) : Except String Index :=
  match Note.new canon name path tags with
  | .error e => .error e
  | .ok n => .ok ⟨btreeInsert n i.notes⟩

/-- `Index::remove`: removes by name, returning the updated index and
whether a note was removed. -/
def Index.remove (i : Index) (name : String) : Index × Bool :=
  let r := btreeRemove name i.notes
  (⟨r.1⟩, r.2)

/-- `Index::contains`. -/
def Index.contains (i : Index) (name : String) : Bool :=
  (btreeGet name i.notes).isSome

/-- `Index::get`. -/
def Index.get (i : Index) (name : String) : Option Note :=
  btreeGet name i.notes

/-- `PartialEq for Index`: `BTreeSet` equality compares lengths and then the
elements pairwise in order, using `PartialEq for Note` (names only). -/
def Index.beq (i j : Index) : Bool :=
  i.notes.length == j.notes.length &&
    (List.zip i.notes j.notes).all fun p => Note.beq p.1 p.2

/-- Deserializing a `BTreeSet<Note>` (as serde does when `Index::load` reads
the store): start from the empty set and `insert` each serialized element in
sequence. -/
def loadNotes (l : List Note) : List Note :=
  l.foldl (fun acc n => btreeInsert n acc) []

/-- `Index::load`, at the level of the persisted list of note records. -/
def Index.load (l : List Note) : Index := ⟨loadNotes l⟩

/-- `Index::store`: serializes the set as its ordered list of note
records. -/
def Index.store (i : Index) : List Note := i.notes

/-- The `BTreeSet` representation invariant: the element list is strictly
sorted by name (hence names are pairwise distinct). -/
def Ordered (ns : List Note) : Prop :=
  List.Chain' Note.lt ns

/-! ### Order facts about the name comparison -/

theorem string_data_inj {a b : String} (h : a.data = b.data) : a = b :=
  String.toList_inj.mp h

theorem noteLt_trans {a b c : Note} (h1 : Note.lt a b) (h2 : Note.lt b c) : Note.lt a c :=
  lt_trans h1 h2

theorem noteLt_irrefl (a : Note) : ¬ Note.lt a a :=
  lt_irrefl _

instance : IsTrans Note Note.lt := ⟨fun _ _ _ => noteLt_trans⟩

instance : IsAntisymm Note Note.lt :=
  ⟨fun a _ h1 h2 => absurd (noteLt_trans h1 h2) (noteLt_irrefl a)⟩

theorem noteLt_of_not_lt_of_ne {a b : Note} (h1 : ¬ a.name.data < b.name.data)
    (h2 : ¬ a.name = b.name) : b.name.data < a.name.data := by
  rcases lt_trichotomy a.name.data b.name.data with h | h | h
  · exact absurd h h1
  · exact absurd (string_data_inj h) h2
  · exact h

theorem noteLt_name_ne {a b : Note} (h : Note.lt a b) : a.name ≠ b.name := by
  intro he
  have h' : a.name.data < b.name.data := h
  rw [he] at h'
  exact lt_irrefl _ h'

/-! ### The `BTreeSet` invariant and its consequences -/

theorem ordered_iff {ns : List Note} : Ordered ns ↔ List.Pairwise Note.lt ns :=
  List.chain'_iff_pairwise

theorem ordered_cons {m : Note} {ms : List Note} (h : Ordered (m :: ms)) :
    Ordered ms ∧ ∀ x ∈ ms, Note.lt m x := by
  rw [ordered_iff, List.pairwise_cons] at h
  exact ⟨ordered_iff.mpr h.2, h.1⟩

theorem pairwiseNe_iff_nodup {l : List Note} :
    List.Pairwise (fun a b : Note => a.name ≠ b.name) l ↔ (l.map Note.name).Nodup := by
  rw [List.Nodup, List.pairwise_map]

theorem pairwiseNe_of_perm {l1 l2 : List Note} (hp : l1.Perm l2)
    (h : List.Pairwise (fun a b : Note => a.name ≠ b.name) l1) :
    List.Pairwise (fun a b : Note => a.name ≠ b.name) l2 := by
  rw [pairwiseNe_iff_nodup] at h ⊢
  exact ((hp.map Note.name).nodup_iff).mp h

theorem ordered_names_distinct {ns : List Note} (h : Ordered ns) :
    List.Pairwise (fun a b : Note => a.name ≠ b.name) ns :=
  (ordered_iff.mp h).imp noteLt_name_ne

theorem name_not_mem_of_all_gt {name : String} {ns : List Note}
    (h : ∀ x ∈ ns, name.data < x.name.data) : name ∉ ns.map Note.name := by
  intro hmem
  rcases List.mem_map.mp hmem with ⟨x, hx, hn⟩
  have := h x hx
  rw [hn] at this
  exact lt_irrefl _ this

theorem name_not_mem_tail {name : String} {m : Note} {ms : List Note}
    (hord : Ordered (m :: ms)) (hlt : name.data < m.name.data) :
    name ∉ (m :: ms).map Note.name := by
  apply name_not_mem_of_all_gt
  intro x hx
  rcases List.mem_cons.mp hx with rfl | hx'
  · exact hlt
  · exact lt_trans hlt ((ordered_cons hord).2 x hx')

/-! ### `btreeGet` -/

theorem btreeGet_eq_some {name : String} {ns : List Note} {n : Note}
    (h : btreeGet name ns = some n) : n ∈ ns ∧ n.name = name := by
  induction ns with
  | nil => simp [btreeGet] at h
  | cons m ms ih =>
    rw [btreeGet] at h
    split_ifs at h with h1 h2
    · rw [Option.some_inj] at h
      subst h
      exact ⟨List.mem_cons_self m ms, h2.symm⟩
    · rcases ih h with ⟨h3, h4⟩
      exact ⟨List.mem_cons_of_mem m h3, h4⟩

theorem btreeGet_eq_none_of_not_mem {name : String} {ns : List Note}
    (h : name ∉ ns.map Note.name) : btreeGet name ns = none := by
  cases hg : btreeGet name ns with
  | none => rfl
  | some n =>
    rcases btreeGet_eq_some hg with ⟨h1, h2⟩
    exact absurd (List.mem_map.mpr ⟨n, h1, h2⟩) h

theorem btreeGet_isSome_of_mem {name : String} {ns : List Note} (hord : Ordered ns)
    (hm : name ∈ ns.map Note.name) : (btreeGet name ns).isSome := by
  induction ns with
  | nil => simp at hm
  | cons m ms ih =>
    rw [btreeGet]
    split_ifs with h1 h2
    · exact absurd hm (name_not_mem_tail hord h1)
    · simp
    · apply ih (ordered_cons hord).1
      rcases List.mem_map.mp hm with ⟨x, hx, hn⟩
      rcases List.mem_cons.mp hx with rfl | hx'
      · exact absurd hn.symm h2
      · exact List.mem_map.mpr ⟨x, hx', hn⟩

theorem btreeGet_mem_iff {name : String} {ns : List Note} (hord : Ordered ns) :
    (btreeGet name ns).isSome ↔ name ∈ ns.map Note.name := by
  constructor
  · intro h
    cases hg : btreeGet name ns with
    | none => rw [hg] at h; simp at h
    | some n =>
      rcases btreeGet_eq_some hg with ⟨h1, h2⟩
      exact List.mem_map.mpr ⟨n, h1, h2⟩
  · exact btreeGet_isSome_of_mem hord

/-! ### `btreeInsert` -/

theorem btreeInsert_head (n : Note) (ns : List Note) :
    ((btreeInsert n ns).head? = some n ∧ ∀ m ∈ ns.head?, Note.lt n m) ∨
      (btreeInsert n ns).head? = ns.head? := by
  cases ns with
  | nil => exact Or.inl ⟨rfl, by simp⟩
  | cons m ms =>
    rw [btreeInsert]
    split_ifs with h1 h2
    · exact Or.inl ⟨rfl, by simpa using h1⟩
    · exact Or.inr rfl
    · exact Or.inr rfl

theorem btreeInsert_ordered (n : Note) {ns : List Note} (h : Ordered ns) :
    Ordered (btreeInsert n ns) := by
  induction ns with
  | nil => exact List.chain'_singleton n
  | cons m ms ih =>
    rw [btreeInsert]
    split_ifs with h1 h2
    · exact List.Chain'.cons h1 h
    · exact h
    · have hmn : Note.lt m n := noteLt_of_not_lt_of_ne h1 h2
      rcases ordered_cons h with ⟨htail, _⟩
      show List.Chain' Note.lt (m :: btreeInsert n ms)
      rw [List.chain'_cons']
      refine ⟨?_, ih htail⟩
      intro y hy
      rcases btreeInsert_head n ms with ⟨hh, _⟩ | hh
      · rw [hh] at hy
        simp only [Option.mem_def, Option.some_inj] at hy
        exact hy ▸ hmn
      · rw [hh] at hy
        exact (List.chain'_cons'.mp h).1 y hy

theorem btreeInsert_of_name_mem {n : Note} {ns : List Note} (hord : Ordered ns)
    (hmem : n.name ∈ ns.map Note.name) : btreeInsert n ns = ns := by
  induction ns with
  | nil => simp at hmem
  | cons m ms ih =>
    rw [btreeInsert]
    split_ifs with h1 h2
    · exact absurd hmem (name_not_mem_tail hord h1)
    · rfl
    · congr 1
      apply ih (ordered_cons hord).1
      rcases List.mem_map.mp hmem with ⟨x, hx, hn⟩
      rcases List.mem_cons.mp hx with rfl | hx'
      · exact absurd hn.symm h2
      · exact List.mem_map.mpr ⟨x, hx', hn⟩

theorem btreeGet_btreeInsert_fresh {n : Note} {ns : List Note}
    (hfresh : n.name ∉ ns.map Note.name) :
    btreeGet n.name (btreeInsert n ns) = some n := by
  induction ns with
  | nil =>
    rw [btreeInsert, btreeGet]
    rw [if_neg (lt_irrefl _), if_pos rfl]
  | cons m ms ih =>
    have hne : n.name ≠ m.name := by
      intro he
      exact hfresh (List.mem_map.mpr ⟨m, List.mem_cons_self m ms, he.symm⟩)
    rw [btreeInsert]
    split_ifs with h1
    · rw [btreeGet]
      rw [if_neg (lt_irrefl _), if_pos rfl]
    · rw [btreeGet, if_neg h1, if_neg hne]
      apply ih
      intro hmem
      exact hfresh (List.mem_map.mp hmem |>.elim fun x ⟨hx, hn⟩ =>
        List.mem_map.mpr ⟨x, List.mem_cons_of_mem m hx, hn⟩)

theorem btreeInsert_perm {n : Note} {ns : List Note}
    (hfresh : n.name ∉ ns.map Note.name) : (btreeInsert n ns).Perm (n :: ns) := by
  induction ns with
  | nil => rw [btreeInsert]
  | cons m ms ih =>
    have hne : n.name ≠ m.name := by
      intro he
      exact hfresh (List.mem_map.mpr ⟨m, List.mem_cons_self m ms, he.symm⟩)
    rw [btreeInsert]
    split_ifs with h1
    · exact List.Perm.refl _
    · have htail : n.name ∉ ms.map Note.name := by
        intro hmem
        exact hfresh (List.mem_map.mp hmem |>.elim fun x ⟨hx, hn⟩ =>
          List.mem_map.mpr ⟨x, List.mem_cons_of_mem m hx, hn⟩)
      exact ((ih htail).cons m).trans (List.Perm.swap n m ms)

/-! ### `btreeRemove` -/

theorem btreeRemove_not_mem {name : String} {ns : List Note} (hord : Ordered ns)
    (hm : name ∉ ns.map Note.name) : btreeRemove name ns = (ns, false) := by
  induction ns with
  | nil => rfl
  | cons m ms ih =>
    have hne : name ≠ m.name := by
      intro he
      exact hm (List.mem_map.mpr ⟨m, List.mem_cons_self m ms, he.symm⟩)
    rw [btreeRemove]
    split_ifs with h1
    · rfl
    · have htail : name ∉ ms.map Note.name := by
        intro hmem
        exact hm (List.mem_map.mp hmem |>.elim fun x ⟨hx, hn⟩ =>
          List.mem_map.mpr ⟨x, List.mem_cons_of_mem m hx, hn⟩)
      rw [ih (ordered_cons hord).1 htail]

theorem btreeRemove_mem {name : String} {ns : List Note} (hord : Ordered ns)
    (hm : name ∈ ns.map Note.name) : (btreeRemove name ns).2 = true := by
  induction ns with
  | nil => simp at hm
  | cons m ms ih =>
    rw [btreeRemove]
    split_ifs with h1 h2
    · exact absurd hm (name_not_mem_tail hord h1)
    · rfl
    · show (btreeRemove name ms).2 = true
      apply ih (ordered_cons hord).1
      rcases List.mem_map.mp hm with ⟨x, hx, hn⟩
      rcases List.mem_cons.mp hx with rfl | hx'
      · exact absurd hn.symm h2
      · exact List.mem_map.mpr ⟨x, hx', hn⟩

theorem btreeRemove_sublist (name : String) (ns : List Note) :
    (btreeRemove name ns).1.Sublist ns := by
  induction ns with
  | nil => exact List.Sublist.refl _
  | cons m ms ih =>
    rw [btreeRemove]
    split_ifs with h1 h2
    · exact List.Sublist.refl _
    · exact List.sublist_cons_self m ms
    · show (m :: (btreeRemove name ms).1).Sublist (m :: ms)
      exact List.Sublist.cons₂ m ih

theorem btreeRemove_ordered {name : String} {ns : List Note} (hord : Ordered ns) :
    Ordered (btreeRemove name ns).1 :=
  ordered_iff.mpr ((ordered_iff.mp hord).sublist (btreeRemove_sublist name ns))

/-! ### `loadNotes` and the store round-trip -/

theorem loadNotes_ordered_aux (l acc : List Note) (hacc : Ordered acc) :
    Ordered (l.foldl (fun a n => btreeInsert n a) acc) := by
  induction l generalizing acc with
  | nil => exact hacc
  | cons n ns ih => exact ih _ (btreeInsert_ordered n hacc)

theorem loadNotes_ordered (l : List Note) : Ordered (loadNotes l) :=
  loadNotes_ordered_aux l [] List.chain'_nil

theorem btreeInsert_append {n : Note} {acc : List Note}
    (h : ∀ m ∈ acc, Note.lt m n) : btreeInsert n acc = acc ++ [n] := by
  induction acc with
  | nil => rfl
  | cons m ms ih =>
    have hmn : Note.lt m n := h m (List.mem_cons_self m ms)
    rw [btreeInsert]
    split_ifs with h1 h2
    · exact absurd h1 (asymm hmn)
    · exact absurd h2.symm (noteLt_name_ne hmn)
    · rw [ih fun x hx => h x (List.mem_cons_of_mem m hx)]
      rfl

theorem loadNotes_sorted_aux (l acc : List Note) (h : Ordered (acc ++ l)) :
    l.foldl (fun a n => btreeInsert n a) acc = acc ++ l := by
  induction l generalizing acc with
  | nil => simp
  | cons n ns ih =>
    have hpw := ordered_iff.mp h
    rw [List.pairwise_append] at hpw
    have hstep : btreeInsert n acc = acc ++ [n] :=
      btreeInsert_append fun m hm => hpw.2.2 m hm n (List.mem_cons_self n ns)
    rw [List.foldl_cons, hstep]
    have h2 : Ordered ((acc ++ [n]) ++ ns) := by
      rw [List.append_assoc]
      exact h
    rw [ih (acc ++ [n]) h2, List.append_assoc]
    rfl

theorem loadNotes_of_ordered {ns : List Note} (h : Ordered ns) : loadNotes ns = ns := by
  have := loadNotes_sorted_aux ns [] (by simpa using h)
  simpa using this

theorem loadNotes_perm_aux (l acc : List Note)
    (h : List.Pairwise (fun a b : Note => a.name ≠ b.name) (acc ++ l)) :
    (l.foldl (fun a n => btreeInsert n a) acc).Perm (acc ++ l) := by
  induction l generalizing acc with
  | nil => simp
  | cons n ns ih =>
    have hfresh : n.name ∉ acc.map Note.name := by
      rw [List.pairwise_append] at h
      intro hmem
      rcases List.mem_map.mp hmem with ⟨x, hx, hn⟩
      exact absurd hn (h.2.2 x hx n (List.mem_cons_self n ns))
    have hperm1 : (btreeInsert n acc).Perm (n :: acc) := btreeInsert_perm hfresh
    have hpw2 : List.Pairwise (fun a b : Note => a.name ≠ b.name) (btreeInsert n acc ++ ns) :=
      pairwiseNe_of_perm (hperm1.append_right ns).symm
        (pairwiseNe_of_perm List.perm_middle h)
    rw [List.foldl_cons]
    exact (ih (btreeInsert n acc) hpw2).trans
      ((hperm1.append_right ns).trans List.perm_middle.symm)

theorem loadNotes_perm {l : List Note}
    (h : List.Pairwise (fun a b : Note => a.name ≠ b.name) l) :
    (loadNotes l).Perm l :=
  by simpa using loadNotes_perm_aux l [] (by simpa using h)

theorem load_order_independent {l1 l2 : List Note}
    (h : List.Pairwise (fun a b : Note => a.name ≠ b.name) l1)
    (hp : l1.Perm l2) : Index.load l1 = Index.load l2 := by
  have h2 : List.Pairwise (fun a b : Note => a.name ≠ b.name) l2 :=
    pairwiseNe_of_perm hp h
  have hperm : (loadNotes l1).Perm (loadNotes l2) :=
    ((loadNotes_perm h).trans hp).trans (loadNotes_perm h2).symm
  have hs1 : List.Sorted Note.lt (loadNotes l1) := ordered_iff.mp (loadNotes_ordered l1)
  have hs2 : List.Sorted Note.lt (loadNotes l2) := ordered_iff.mp (loadNotes_ordered l2)
  unfold Index.load
  rw [List.eq_of_perm_of_sorted hperm hs1 hs2]

/-! ### `Index.beq` characterization -/

theorem beq_names_aux (xs ys : List Note) :
    (((xs.length == ys.length) &&
      (xs.zip ys).all fun p => Note.beq p.1 p.2) = true) ↔
      xs.map Note.name = ys.map Note.name := by
  induction xs generalizing ys with
  | nil => cases ys <;> simp
  | cons x xs ih =>
    cases ys with
    | nil => simp
    | cons y ys =>
      have hih := ih ys
      simp only [List.length_cons, List.zip_cons_cons, List.all_cons, List.map_cons,
        Note.beq, Bool.and_eq_true, beq_iff_eq, List.cons.injEq] at hih ⊢
      constructor
      · rintro ⟨h1, h2, h3⟩
        exact ⟨h2, hih.mp ⟨by omega, h3⟩⟩
      · rintro ⟨h1, h2⟩
        rcases hih.mpr h2 with ⟨hl, hall⟩
        exact ⟨by omega, h1, hall⟩

theorem Index.beq_iff_names (i j : Index) :
    Index.beq i j = true ↔ i.notes.map Note.name = j.notes.map Note.name :=
  beq_names_aux i.notes j.notes

/-! ### Error messages (args/commands/errors.rs) -/

/-- `errors::already_exists`. -/
def errAlreadyExists (name : String) : String :=
  "A note named `" ++ name ++ "` already exists."

/-- `errors::does_not_exist`. -/
def errDoesNotExist (name : String) : String :=
  "Note `" ++ name ++ "` does not exist."

/-- `errors::could_not`. -/
def errCouldNot (action : String) : String :=
  "Could not " ++ action ++ "."

/-- Rendering a path for display (`Path::display` on an absolute path). -/
def renderComps (p : List String) : String := String.intercalate "/" p

/-- Display of an absolute path. -/
def renderAbs (p : FsPath) : String := "/" ++ renderComps p

/-- Display of the relative path built by `abs_to_rel`: `k` leading `../`
segments followed by the remaining components. -/
def renderRel (k : Nat) (rest : List String) : String :=
  String.join (List.replicate k "../") ++ renderComps rest

/-- `errors::could_not_note`. -/
def errCouldNotNote (action name : String) (path : FsPath) : String :=
  "Could not " ++ action ++ " note `" ++ name ++ "` at " ++ renderAbs path ++ "."

/-! ### Path relativization (args/commands/mod.rs, `abs_to_rel` and
`is_in_root`)

Values of `Option` model panics: `none` is an `unwrap` failure. -/

/-- `Path::strip_prefix`, component-wise. -/
def stripPre : List String → List String → Option (List String)
  | [], p => some p
  | _ :: _, [] => none
  | a :: as, b :: bs => if a = b then stripPre as bs else none

/-- `Path::parent`: `none` exactly for the root. -/
def parentDir : FsPath → Option FsPath
  | [] => none
  | p => some p.dropLast

/-- `PathBuf::pop` applied `k` times (popping past the root stays at the
root, as in Rust). -/
def popN (p : FsPath) : Nat → FsPath
  | 0 => p
  | k + 1 => (popN p k).dropLast

/-- The ancestor-walking loop in `abs_to_rel`: starting from the `k`-th
ancestor of the working directory `c`, keep popping until `p` can be
stripped; returns the number of `../` segments and the remaining
components.  `fuel` counts the remaining pops until the ancestor is the
root (where stripping always succeeds), making the recursion structural. -/
def relLoop (p c : FsPath) : Nat → Nat → Nat × List String
  | 0, k => (k, p)
  | fuel + 1, k =>
    match stripPre (popN c k) p with
    | some r => (k, r)
    | none => relLoop p c fuel (k + 1)

/-- `is_in_root`: canonicalizes the relative path (resolving its `../`
segments against the working directory `c` and requiring the target to
exist — `x` is the file-system existence predicate) and asks whether its
parent is the root.  The two `unwrap`s are the two `none` outcomes. -/
def is_in_root (x : FsPath → Bool) (c : FsPath) (k : Nat) (rest : List String) :
    Option Bool :=
  if x (popN c k ++ rest) then
    match parentDir (popN c k ++ rest) with
    | none => none
    | some par => some (par == ([] : FsPath))
  else none

/-- `abs_to_rel`: `cwd` is `std::env::current_dir()` (`none` when
inaccessible), `x` the file-system existence predicate used by
`canonicalize`, `p` the note's absolute path.  Returns the rendered string,
or `none` when the code would panic. -/
def abs_to_rel (x : FsPath → Bool) (cwd : Option FsPath) (p : FsPath) :
    Option String :=
  match cwd with
  | none => some (renderAbs p)
  | some c =>
    match stripPre c p with
    | some rest => some ("./" ++ renderComps rest)
    | none =>
      match parentDir c with
      | none => none
      | some _ =>
        let r := relLoop p c (c.length - 1) 1
        match is_in_root x c r.1 r.2 with
        | none => none
        | some b => if b then some (renderAbs p) else some (renderRel r.1 r.2)

/-! ### The effect world and the command handlers (args/commands/mod.rs) -/

/-- The ambient file system and external processes, as the command layer
observes them. -/
structure World where
  /-- Existing regular files. -/
  files : List FsPath
  /-- Existing directories. -/
  dirs : List FsPath
  /-- `std::env::current_dir()`; `none` when inaccessible. -/
  cwd : Option FsPath
  /-- `scrawl::new()`: the edited text, `none` on editor failure. -/
  editorNew : Option String
  /-- Whether `file.write_all` succeeds. -/
  writeOk : Bool
  /-- Whether `scrawl::edit(path)` succeeds. -/
  editOk : FsPath → Bool
  /-- Whether `fs::remove_file(path)` succeeds. -/
  removeOk : FsPath → Bool
  /-- Whether `File::create(path)` succeeds. -/
  createOk : FsPath → Bool

/-- Whether a path exists (file or directory). -/
def World.fsExists (w : World) (p : FsPath) : Bool :=
  decide (p ∈ w.files) || decide (p ∈ w.dirs)

/-- `fs::canonicalize`: succeeds exactly on existing paths (paths are kept
in canonical form in the model). -/
def World.canonicalize (w : World) (p : FsPath) : Option FsPath :=
  if w.fsExists p then some p else none

/-- `fs::remove_file`: on success the file is gone from the world. -/
def World.removeFile (w : World) (p : FsPath) : Option World :=
  if w.removeOk p then some { w with files := w.files.erase p } else none

/-- `add_note`: pre-checks name uniqueness with `ensure!`, then calls
`Index::add`. -/
def add_note (w : World) (i : Index) (name : String) (path : FsPath)
    (tags : Option (List String)) : Index × Except String Unit :=
  if Index.contains i name then (i, .error (errAlreadyExists name))
  else
    match Index.add w.canonicalize i name path tags with
    | .error e => (i, .error e)
    | .ok i2 => (i2, .ok ())

/-- `create_new_note`: resolves the target path (defaulting to
`<cwd>/<name>.txt`), checks the name is fresh and the path is neither a
directory nor an existing file, creates the file, runs the editor, writes
the text back, and finally calls `add_note`. -/
def create_new_note (w : World) (i : Index) (name : String) (path : Option FsPath)
    (tags : Option (List String)) : World × Index × Except String Unit :=
  match (match path with
         | some p => some p
         | none => w.cwd.map fun c => c ++ [name ++ ".txt"]) with
  | none => (w, i, .error (errCouldNot "access current directory"))
  | some p =>
    if Index.contains i name then (w, i, .error (errAlreadyExists name))
    else if decide (p ∈ w.dirs) then
      (w, i, .error (renderAbs p ++ " is a directory, not a file."))
    else if w.fsExists p then
      (w, i, .error ("A file at " ++ renderAbs p ++ " already exists."))
    else if w.createOk p then
      let w2 := { w with files := p :: w.files }
      match w2.editorNew with
      | none => (w2, i, .error (errCouldNot "open editor"))
      | some _ =>
        if w2.writeOk then
          match add_note w2 i name p tags with
          | (i2, .error e) => (w2, i2, .error e)
          | (i2, .ok _) => (w2, i2, .ok ())
        else (w2, i, .error (errCouldNot "write to file"))
    else (w, i, .error ("Could not create " ++ renderAbs p ++ "."))

/-- `edit_note`: looks the note up and runs the external editor on its
path; the index is only read. -/
def edit_note (w : World) (i : Index) (name : String) : Index × Except String Unit :=
  match Index.get i name with
  | none => (i, .error (errDoesNotExist name))
  | some note =>
    if w.editOk note.path then (i, .ok ())
    else (i, .error (errCouldNotNote "open" name note.path))

/-- `remove_note`: removes from the index, then `ensure!`s that something
was removed. -/
def remove_note (i : Index) (name : String) : Index × Except String Unit :=
  let r := Index.remove i name
  if r.2 then (r.1, .ok ()) else (r.1, .error (errDoesNotExist name))

/-- `delete_note`: looks the note up, deletes its file with
`fs::remove_file`, and only then removes the index entry via
`remove_note`. -/
def delete_note (w : World) (i : Index) (name : String) :
    World × Index × Except String Unit :=
  match Index.get i name with
  | none => (w, i, .error (errDoesNotExist name))
  | some note =>
    match w.removeFile note.path with
    | none => (w, i, .error (errCouldNotNote "delete" name note.path))
    | some w2 =>
      match remove_note i name with
      | (i2, .error e) => (w2, i2, .error e)
      | (i2, .ok _) => (w2, i2, .ok ())

/-- `list_notes`: purely presentational.  On an empty index it prints a
message; otherwise, when `show_paths` is set, it runs `abs_to_rel` on every
note's path — whose panic (`none`) propagates. -/
def list_notes (w : World) (i : Index) (show_paths : Bool) (_show_tags : Bool) :
    Option (Except String Unit) :=
  if i.notes.isEmpty then some (.ok ())
  else if show_paths then
    match i.notes.mapM (fun n => abs_to_rel w.fsExists w.cwd n.path) with
    | none => none
    | some _ => some (.ok ())
  else some (.ok ())

/-- The `Command` enum (args/commands/mod.rs). -/
inductive Command where
  | new (name : String) (path : Option FsPath) (tags : Option (List String))
  | add (name : String) (path : FsPath) (tags : Option (List String))
  | edit (name : String)
  | remove (name : String)
  | delete (name : String)
  | list (show_paths : Bool) (show_tags : Bool)

/-- `Command::execute`: dispatch to the matching handler.  The result is
`none` when the handler panics; otherwise the final world, the final index
(`&mut Index` threading) and the `Result`. -/
def Command.execute (w : World) (cmd : Command) (i : Index) :
    Option (World × Index × Except String Unit) :=
  match cmd with
  | .new n p t => some (create_new_note w i n p t)
  | .add n p t =>
    let r := add_note w i n p t
    some (w, r.1, r.2)
  | .edit n =>
    let r := edit_note w i n
    some (w, r.1, r.2)
  | .remove n =>
    let r := remove_note i n
    some (w, r.1, r.2)
  | .delete n => some (delete_note w i n)
  | .list sp st =>
    match list_notes w i sp st with
    | none => none
    | some r => some (w, i, r)

/-- `Args::execute` (args/mod.rs): load the index, run the command with
`?`, then store.  `loadRes` and `storeRes` model `Index::load` and
`Index::store` on the persisted file.  The second component records the
index `store` was called with (`none`: `store` was never reached). -/
def Args.execute (loadRes : Except String Index)
    (storeRes : Index → Except String Unit) (w : World) (cmd : Command) :
    Option (Except String Unit × Option Index) :=
  match loadRes with
  | .error e => some (.error e, none)
  | .ok i =>
    match Command.execute w cmd i with
    | none => none
    | some (_, _, .error e) => some (.error e, none)
    | some (_, i2, .ok _) => some (storeRes i2, some i2)

/-! ### Facts about the relativization helpers -/

theorem popN_length (p : FsPath) (k : Nat) : (popN p k).length = p.length - k := by
  induction k with
  | zero => rfl
  | succ k ih =>
    rw [popN, List.length_dropLast, ih]
    omega

theorem popN_root (p : FsPath) : popN p p.length = [] := by
  have h := popN_length p p.length
  rw [Nat.sub_self] at h
  exact List.eq_nil_of_length_eq_zero h

theorem stripPre_nil (p : List String) : stripPre [] p = some p := rfl

theorem stripPre_append {a : List String} :
    ∀ {p r : List String}, stripPre a p = some r → a ++ r = p := by
  induction a with
  | nil =>
    intro p r h
    rw [stripPre_nil, Option.some_inj] at h
    rw [h]
    rfl
  | cons x xs ih =>
    intro p r h
    cases p with
    | nil => exact absurd h (by rw [stripPre]; simp)
    | cons y ys =>
      rw [stripPre] at h
      split_ifs at h with he
      subst he
      rw [List.cons_append, ih h]

theorem relLoop_strip (p c : FsPath) :
    ∀ (fuel k : Nat), fuel + k = c.length →
      stripPre (popN c (relLoop p c fuel k).1) p = some (relLoop p c fuel k).2 := by
  intro fuel
  induction fuel with
  | zero =>
    intro k hk
    have hkc : k = c.length := by omega
    subst hkc
    rw [relLoop, popN_root]
    rfl
  | succ fuel ih =>
    intro k hk
    rw [relLoop]
    cases hs : stripPre (popN c k) p with
    | some r =>
      simp only
      exact hs
    | none =>
      simp only
      exact ih (k + 1) (by omega)

/-! ## Claims -/

/-- Claim C1, counterexample: `Index::add` on an index already holding a
note named `a`, with an accessible path, succeeds but returns the index
still holding the OLD note (path `old`, no tags) — it does not replace the
entry with the newly constructed note (path `new`, tags `[t]`), because
`BTreeSet::insert` keeps the already-present element. -/
theorem C1_counterexample :
    Index.add (fun _ => some ["new"]) ⟨[⟨"a", ["old"], none⟩]⟩ "a" ["new"] (some ["t"])
        = .ok ⟨[⟨"a", ["old"], none⟩]⟩ ∧
      (⟨[⟨"a", ["old"], none⟩]⟩ : Index) ≠ ⟨[⟨"a", ["new"], some ["t"]⟩]⟩ :=
  ⟨rfl, by decide⟩

/-- Claim C1, amended: for every index satisfying the invariant that
already contains a note named `name`, `Index::add` with an accessible path
succeeds and leaves the index completely unchanged — the existing
same-named entry is kept and the newly constructed note is discarded
(`BTreeSet::insert` does not replace), rather than replacing it or
failing. -/
theorem C1_add_existing_keeps_entry (i : Index) (canon : FsPath → Option FsPath)
    (name : String) (p cp : FsPath) (tags : Option (List String))
    (hord : Ordered i.notes) (hacc : canon p = some cp)
    (hmem : name ∈ i.notes.map Note.name) :
    Index.add canon i name p tags = .ok i := by
  unfold Index.add Note.new
  rw [hacc]
  simp only
  rw [btreeInsert_of_name_mem hord hmem]

/-- Claim C1, witness for the amended theorem. -/
theorem C1_witness :
    Index.add (fun _ => some ["q"]) ⟨[⟨"a", ["p"], none⟩]⟩ "a" ["q"] none
      = .ok ⟨[⟨"a", ["p"], none⟩]⟩ :=
  C1_add_existing_keeps_entry ⟨[⟨"a", ["p"], none⟩]⟩ (fun _ => some ["q"]) "a" ["q"]
    ["q"] none (List.chain'_singleton _) rfl (by decide)

/-- Claim C2, counterexample: two reachable indexes that contain notes
with the same name but different paths and tags — so NOT the same set of
notes under full structural equality — are nevertheless equal under
`PartialEq for Index`, because `BTreeSet` equality compares elements with
`PartialEq for Note`, which looks at names only. -/
theorem C2_counterexample :
    Index.beq ⟨[⟨"a", ["p"], none⟩]⟩ ⟨[⟨"a", ["q"], some ["t"]⟩]⟩ = true ∧
      (⟨[⟨"a", ["p"], none⟩]⟩ : Index) ≠ ⟨[⟨"a", ["q"], some ["t"]⟩]⟩ := by
  constructor
  · rfl
  · decide

/-- Claim C2, amended: Index equality holds iff the two indexes hold notes
with exactly the same names in the same order (paths and tags are
ignored); insertion order still does not matter: loading the same
distinctly-named notes in any order builds identical indexes. -/
theorem C2_index_equality (i j : Index) (l1 l2 : List Note) :
    (Index.beq i j = true ↔ i.notes.map Note.name = j.notes.map Note.name) ∧
      (List.Pairwise (fun a b : Note => a.name ≠ b.name) l1 → l1.Perm l2 →
        Index.load l1 = Index.load l2) :=
  ⟨Index.beq_iff_names i j, fun h hp => load_order_independent h hp⟩

/-- Claim C2, witness for the amended theorem: inserting two notes in
either order yields the same index. -/
theorem C2_witness :
    Index.load [⟨"a", ["p"], none⟩, ⟨"b", ["q"], none⟩]
      = Index.load [⟨"b", ["q"], none⟩, ⟨"a", ["p"], none⟩] :=
  (C2_index_equality (⟨[]⟩ : Index) (⟨[]⟩ : Index) [⟨"a", ["p"], none⟩, ⟨"b", ["q"], none⟩]
      [⟨"b", ["q"], none⟩, ⟨"a", ["p"], none⟩]).2
    (by decide)
    (List.Perm.swap (⟨"b", ["q"], none⟩ : Note) (⟨"a", ["p"], none⟩ : Note) [])

/-- Claim C3, counterexample: an invocation in which the index is loaded
successfully and the (read-only-on-the-index) Edit command is executed but
fails with NotFound.  The `?` operator in `Args::execute` propagates the
error, so `Index::store` is never reached (second component `none`) —
contradicting "stored back to disk unconditionally". -/
theorem C3_counterexample :
    Args.execute (.ok ⟨[]⟩) (fun _ => .ok ())
        ⟨[], [], none, none, true, fun _ => true, fun _ => true, fun _ => true⟩
        (.edit "x")
      = some (.error (errDoesNotExist "x"), none) := rfl

/-- Claim C3, amended: whenever the persisted index is loaded successfully
and the command execution SUCCEEDS (mutating or read-only, even when the
index is unchanged), the resulting index is stored back; when the command
fails, the error propagates and the index is not stored. -/
theorem C3_store_after_success (loadRes : Except String Index)
    (storeRes : Index → Except String Unit) (w : World) (cmd : Command)
    (i : Index) (w2 : World) (i2 : Index)
    (hload : loadRes = .ok i)
    (hcmd : Command.execute w cmd i = some (w2, i2, .ok ())) :
    Args.execute loadRes storeRes w cmd = some (storeRes i2, some i2) := by
  subst hload
  simp only [Args.execute, hcmd]

/-- Claim C3, witness for the amended theorem: the read-only, non-mutating
List command on an empty index still reaches `store`. -/
theorem C3_witness :
    Args.execute (.ok ⟨[]⟩) (fun _ => .ok ())
        ⟨[], [], none, none, true, fun _ => true, fun _ => true, fun _ => true⟩
        (.list false false)
      = some (.ok (), some ⟨[]⟩) :=
  C3_store_after_success (.ok ⟨[]⟩) (fun _ => .ok ())
    ⟨[], [], none, none, true, fun _ => true, fun _ => true, fun _ => true⟩
    (.list false false) ⟨[]⟩
    ⟨[], [], none, none, true, fun _ => true, fun _ => true, fun _ => true⟩
    ⟨[]⟩ rfl rfl

theorem is_in_root_spec {x : FsPath → Bool} {c p : FsPath} {k : Nat}
    {rest : List String} (hres : popN c k ++ rest = p) (hx : x p = true)
    (hp : p ≠ []) :
    is_in_root x c k rest = some (p.dropLast == ([] : FsPath)) := by
  rw [is_in_root, hres, hx, if_pos rfl]
  cases p with
  | nil => exact absurd rfl hp
  | cons a as => simp [parentDir]

/-- Claim C4, counterexample: with the working directory accessible at
`/a` and a note path `/b/f` that no longer exists on the file system (a
stale index entry), `abs_to_rel` reaches `is_in_root`, whose
`canonicalize().unwrap()` fails — a panic (`none`), not a graceful
fallback. -/
theorem C4_counterexample :
    abs_to_rel (fun _ => false) (some ["a"]) ["b", "f"] = none := rfl

/-- Claim C4, amended: when the working directory is inaccessible the
helper returns the original absolute path unchanged; when the note's file
still exists the helper never panics, and in particular when the path is
not under the working directory and the (canonicalized) path sits directly
in the file-system root it falls back to the original absolute path
unchanged.  (When the path is not under the working directory and the
note's file no longer exists, the helper panics — see the
counterexample.) -/
theorem C4_abs_to_rel_graceful (x : FsPath → Bool) (p : FsPath) :
    (abs_to_rel x none p = some (renderAbs p)) ∧
    (∀ c : FsPath, x p = true → p ≠ [] → (abs_to_rel x (some c) p).isSome = true) ∧
    (∀ c : FsPath, x p = true → stripPre c p = none → parentDir p = some [] →
      abs_to_rel x (some c) p = some (renderAbs p)) := by
  refine ⟨rfl, ?_, ?_⟩
  · intro c hx hp
    rw [abs_to_rel]
    cases hs : stripPre c p with
    | some rest => simp
    | none =>
      have hc : c ≠ [] := by
        intro hcn
        rw [hcn, stripPre_nil] at hs
        exact Option.noConfusion hs
      cases c with
      | nil => exact absurd rfl hc
      | cons e es =>
        simp only [parentDir]
        have hstrip := relLoop_strip p (e :: es) ((e :: es).length - 1) 1 (by simp)
        have hres := stripPre_append hstrip
        rw [is_in_root_spec hres hx hp]
        cases p.dropLast == ([] : FsPath) <;> simp
  · intro c hx hs hpd
    have hp : p ≠ [] := by
      intro hpn
      rw [hpn] at hpd
      exact Option.noConfusion hpd
    have hdl : (p.dropLast == ([] : FsPath)) = true := by
      cases p with
      | nil => exact absurd rfl hp
      | cons a as =>
        simp only [parentDir, Option.some_inj] at hpd
        simp [hpd]
    rw [abs_to_rel, hs]
    have hc : c ≠ [] := by
      intro hcn
      rw [hcn, stripPre_nil] at hs
      exact Option.noConfusion hs
    cases c with
    | nil => exact absurd rfl hc
    | cons e es =>
      simp only [parentDir]
      have hstrip := relLoop_strip p (e :: es) ((e :: es).length - 1) 1 (by simp)
      have hres := stripPre_append hstrip
      rw [is_in_root_spec hres hx hp, hdl]
      rfl

/-- Claim C4, witness for the amended theorem: a note file `/f` sitting
directly in the root, not under the working directory `/a`: the helper
falls back to printing the absolute path. -/
theorem C4_witness :
    abs_to_rel (fun _ => true) (some ["a"]) ["f"] = some (renderAbs ["f"]) :=
  (C4_abs_to_rel_graceful (fun _ => true) ["f"]).2.2 ["a"] rfl rfl rfl

/-- Claim C5: every index operation preserves the `BTreeSet` representation
invariant: the notes are strictly sorted by name in ascending lexicographic
order (which is the iteration order), and hence no two notes share a
name.  Stated for `Index::add` (on success), `Index::remove`, and
`Index::load` of an arbitrary well-formed stored note list. -/
theorem C5_invariant_preserved :
    (∀ (canon : FsPath → Option FsPath) (i : Index) (name : String) (p : FsPath)
        (tags : Option (List String)) (j : Index),
      Ordered i.notes → Index.add canon i name p tags = .ok j →
        Ordered j.notes ∧
          List.Pairwise (fun a b : Note => a.name ≠ b.name) j.notes) ∧
    (∀ (i : Index) (name : String), Ordered i.notes →
      Ordered (Index.remove i name).1.notes ∧
        List.Pairwise (fun a b : Note => a.name ≠ b.name)
          (Index.remove i name).1.notes) ∧
    (∀ l : List Note, Ordered (Index.load l).notes ∧
      List.Pairwise (fun a b : Note => a.name ≠ b.name) (Index.load l).notes) := by
  refine ⟨?_, ?_, ?_⟩
  · intro canon i name p tags j hord hadd
    unfold Index.add Note.new at hadd
    cases hc : canon p with
    | none => rw [hc] at hadd; exact Except.noConfusion hadd
    | some cp =>
      rw [hc] at hadd
      simp only [Except.ok.injEq] at hadd
      subst hadd
      have h := btreeInsert_ordered ⟨name, cp, tags⟩ hord
      exact ⟨h, ordered_names_distinct h⟩
  · intro i name hord
    have h : Ordered (btreeRemove name i.notes).1 := btreeRemove_ordered hord
    exact ⟨h, ordered_names_distinct h⟩
  · intro l
    have h : Ordered (loadNotes l) := loadNotes_ordered l
    exact ⟨h, ordered_names_distinct h⟩

/-- Claim C5, witness. -/
theorem C5_witness :
    Ordered (Index.remove ⟨[⟨"a", [], none⟩]⟩ "a").1.notes ∧
      List.Pairwise (fun a b : Note => a.name ≠ b.name)
        (Index.remove ⟨[⟨"a", [], none⟩]⟩ "a").1.notes :=
  C5_invariant_preserved.2.1 ⟨[⟨"a", [], none⟩]⟩ "a" (List.chain'_singleton _)

/-- Claim C6: storing an index (serializing its ordered note list) and
loading it back (deserializing into a fresh `BTreeSet`) returns an
element-wise equal index: the same names, paths and tag lists. -/
theorem C6_store_load_roundtrip (i : Index) (h : Ordered i.notes) :
    Index.load (Index.store i) = i := by
  unfold Index.load Index.store
  rw [loadNotes_of_ordered h]

/-- Claim C6, witness. -/
theorem C6_witness :
    Index.load (Index.store ⟨[⟨"a", ["p"], some ["t"]⟩, ⟨"b", ["q"], none⟩]⟩)
      = ⟨[⟨"a", ["p"], some ["t"]⟩, ⟨"b", ["q"], none⟩]⟩ :=
  C6_store_load_roundtrip ⟨[⟨"a", ["p"], some ["t"]⟩, ⟨"b", ["q"], none⟩]⟩
    (List.chain'_pair.mpr (by decide))

/-- Claim C7, counterexample: `Index::add` stores the CANONICALIZED path,
not the caller-supplied one.  Adding fresh name `n` with the accessible
relative path `x` (which canonicalizes to `/abs/x`) succeeds, but `get`
then returns a note whose path is `/abs/x`, different from the argument
`x` — contradicting "whose path equals p". -/
theorem C7_counterexample :
    Index.add (fun _ => some ["abs", "x"]) ⟨[]⟩ "n" ["x"] none
        = .ok ⟨[⟨"n", ["abs", "x"], none⟩]⟩ ∧
      Index.get ⟨[⟨"n", ["abs", "x"], none⟩]⟩ "n" = some ⟨"n", ["abs", "x"], none⟩ ∧
      (["abs", "x"] : FsPath) ≠ ["x"] :=
  ⟨rfl, rfl, by decide⟩

/-- Claim C7, amended: after `add(n, p, t)` succeeds on a fresh name,
`get(n)` returns a note whose name is `n`, whose path is the CANONICALIZED
form of `p` (equal to `p` whenever `p` is already canonical), and whose
tags equal `t`. -/
theorem C7_add_then_get (canon : FsPath → Option FsPath) (i : Index) (name : String)
    (p cp : FsPath) (tags : Option (List String))
    (hacc : canon p = some cp) (hfresh : name ∉ i.notes.map Note.name) :
    ∃ j : Index, Index.add canon i name p tags = .ok j ∧
      Index.get j name = some ⟨name, cp, tags⟩ := by
  refine ⟨⟨btreeInsert ⟨name, cp, tags⟩ i.notes⟩, ?_, ?_⟩
  · unfold Index.add Note.new
    rw [hacc]
  · exact btreeGet_btreeInsert_fresh (n := ⟨name, cp, tags⟩) hfresh

/-- Claim C7, witness for the amended theorem (with an already-canonical
path, where the returned path equals the argument). -/
theorem C7_witness :
    ∃ j : Index, Index.add (fun q => some q) ⟨[]⟩ "n" ["x"] (some ["t"]) = .ok j ∧
      Index.get j "n" = some ⟨"n", ["x"], some ["t"]⟩ :=
  C7_add_then_get (fun q => some q) ⟨[]⟩ "n" ["x"] ["x"] (some ["t"]) rfl (by simp)

/-- Claim C8: `delete_note` fails with NotFound and leaves world and index
unchanged when the name is not indexed; when it is indexed it deletes the
underlying file first and removes the index entry second, and when the
file deletion fails the index entry is not removed (world and index
unchanged, the I/O error is reported). -/
theorem C8_delete_note (w : World) (i : Index) (name : String)
    (hord : Ordered i.notes) :
    (name ∉ i.notes.map Note.name →
      delete_note w i name = (w, i, .error (errDoesNotExist name))) ∧
    (∀ note : Note, Index.get i name = some note → w.removeOk note.path = false →
      delete_note w i name = (w, i, .error (errCouldNotNote "delete" name note.path))) ∧
    (∀ note : Note, Index.get i name = some note → w.removeOk note.path = true →
      delete_note w i name =
        ({ w with files := w.files.erase note.path },
          (Index.remove i name).1, .ok ())) := by
  refine ⟨?_, ?_, ?_⟩
  · intro h
    unfold delete_note
    rw [show Index.get i name = none from btreeGet_eq_none_of_not_mem h]
  · intro note hg hrm
    unfold delete_note
    rw [hg]
    simp only [World.removeFile, hrm, Bool.false_eq_true, if_false]
  · intro note hg hrm
    have hmem : name ∈ i.notes.map Note.name := by
      rcases btreeGet_eq_some hg with ⟨h1, h2⟩
      exact List.mem_map.mpr ⟨note, h1, h2⟩
    have hrt : (btreeRemove name i.notes).2 = true := btreeRemove_mem hord hmem
    unfold delete_note
    rw [hg]
    simp only [World.removeFile, hrm, if_true, remove_note, Index.remove, hrt]

/-- Claim C8, witness. -/
theorem C8_witness :
    delete_note
        ⟨[["p"]], [], none, none, true, fun _ => true, fun _ => true, fun _ => true⟩
        ⟨[⟨"a", ["p"], none⟩]⟩ "a"
      = (⟨[], [], none, none, true, fun _ => true, fun _ => true, fun _ => true⟩,
          ⟨[]⟩, .ok ()) := by
  have h := (C8_delete_note
      ⟨[["p"]], [], none, none, true, fun _ => true, fun _ => true, fun _ => true⟩
      ⟨[⟨"a", ["p"], none⟩]⟩ "a" (List.chain'_singleton _)).2.2
      ⟨"a", ["p"], none⟩ rfl rfl
  exact h

/-- Claim C9: `Index::remove` on a name not present returns false and
leaves the index unchanged; on a present name it returns true. -/
theorem C9_remove (i : Index) (name : String) (hord : Ordered i.notes) :
    (name ∉ i.notes.map Note.name → Index.remove i name = (i, false)) ∧
    (name ∈ i.notes.map Note.name → (Index.remove i name).2 = true) := by
  constructor
  · intro h
    unfold Index.remove
    rw [btreeRemove_not_mem hord h]
  · intro h
    show (btreeRemove name i.notes).2 = true
    exact btreeRemove_mem hord h

/-- Claim C9, witness. -/
theorem C9_witness :
    Index.remove ⟨[⟨"a", [], none⟩]⟩ "b" = (⟨[⟨"a", [], none⟩]⟩, false) :=
  (C9_remove ⟨[⟨"a", [], none⟩]⟩ "b" (List.chain'_singleton _)).1 (by decide)

/-- Claim C10: executing the Edit command leaves the index (and the world)
completely unchanged, both when it succeeds and when it fails — even
though `Command::execute` receives the index by mutable reference; and
when the name is not indexed it fails with NotFound. -/
theorem C10_edit_frame (w : World) (i : Index) (name : String) :
    (∃ r : Except String Unit,
      Command.execute w (Command.edit name) i = some (w, i, r)) ∧
    (Index.get i name = none →
      Command.execute w (Command.edit name) i
        = some (w, i, .error (errDoesNotExist name))) := by
  have h1 : (edit_note w i name).1 = i := by
    unfold edit_note
    cases Index.get i name with
    | none => rfl
    | some note =>
      show (if w.editOk note.path = true then (i, (Except.ok () : Except String Unit))
        else (i, Except.error (errCouldNotNote "open" name note.path))).1 = i
      split_ifs <;> rfl
  constructor
  · refine ⟨(edit_note w i name).2, ?_⟩
    show some (w, (edit_note w i name).1, (edit_note w i name).2)
      = some (w, i, (edit_note w i name).2)
    rw [h1]
  · intro hg
    show some (w, (edit_note w i name).1, (edit_note w i name).2)
      = some (w, i, .error (errDoesNotExist name))
    unfold edit_note
    rw [hg]

/-- Claim C10, witness. -/
theorem C10_witness :
    Command.execute ⟨[], [], none, none, true, fun _ => true, fun _ => true, fun _ => true⟩
        (Command.edit "x") ⟨[]⟩
      = some (⟨[], [], none, none, true, fun _ => true, fun _ => true, fun _ => true⟩,
          ⟨[]⟩, .error (errDoesNotExist "x")) :=
  (C10_edit_frame ⟨[], [], none, none, true, fun _ => true, fun _ => true, fun _ => true⟩
    ⟨[]⟩ "x").2 rfl

end Scrivener
